import Mathlib

/-!
Verification development for the automaker agent-session orchestration engine.

The repository's HTTP handlers, middleware and UI polling loop are embedded
directly from the TypeScript source.  The Scheduler, Session state machine,
transcript and Worktree Coordinator are not shipped in the source tree that
accompanies the spec (only their callers and configuration are), so they are
modelled from the spec and marked as such on each definition.
-/

namespace Automaker

/-- Session lifecycle states, from spec §4.3:
`Queued → Spawning → Running → Completed | Failed | Cancelled`. -/
inductive SessionState where
  | Queued
  | Spawning
  | Running
  | Completed
  | Failed
  | Cancelled
deriving DecidableEq

/-- A state is terminal when no transition leaves it (spec §4.3). -/
def SessionState.isTerminal : SessionState → Bool
  | .Completed => true
  | .Failed => true
  | .Cancelled => true
  | _ => false

/-- A state is active when the session occupies a concurrency slot: admitted
and not yet terminal (spec §2: the Scheduler releases the concurrency slot on
terminal state). -/
def SessionState.isActive : SessionState → Bool
  | .Spawning => true
  | .Running => true
  | _ => false

/-- Modelled from the spec: one Session record as the Scheduler sees it
(spec §3): id, owning project, current state. -/
structure Sess where
  sid : Nat
  project : Nat
  st : SessionState
deriving DecidableEq

/-- Bool predicate: session of project `p` currently holding a slot. -/
def isActiveFor (p : Nat) (x : Sess) : Bool :=
  x.project == p && x.st.isActive

/-- Bool predicate: session of project `p` in state `Running`. -/
def isRunningFor (p : Nat) (x : Sess) : Bool :=
  x.project == p && x.st == .Running

/-- Bool predicate: session of project `p` in state `Queued`. -/
def queuedFor (p : Nat) (x : Sess) : Bool :=
  x.project == p && x.st == .Queued

/-- Number of slot-holding (Spawning or Running) sessions of project `p`. -/
def activeCount (p : Nat) (l : List Sess) : Nat :=
  l.countP (isActiveFor p)

/-- Number of `Running` sessions of project `p`. -/
def runningCount (p : Nat) (l : List Sess) : Nat :=
  l.countP (isRunningFor p)

/-- The per-project FIFO queue: ids of `Queued` sessions of project `p` in
submission order (the sessions list is append-ordered by submission). -/
def queuedSids (p : Nat) (l : List Sess) : List Nat :=
  l.filterMap (fun x => if queuedFor p x then some x.sid else none)

/-- Modelled from the spec: Scheduler state (spec §4.4, §3 ConcurrencyPool):
the sessions it owns, in submission order, and the per-project capacity map
(`maxConcurrency`, default 3 per spec §3). -/
structure SchedulerState where
  sessions : List Sess
  capacity : Nat → Nat

/-- The initial Scheduler state: no sessions, every project at the default
`maxConcurrency` of 3. -/
def schedInit : SchedulerState :=
  { sessions := [], capacity := fun _ => 3 }

/-- Modelled from the spec: the Scheduler's inbound events (spec §4.4, §6):
submission, spawn completion, the three terminal outcomes, and capacity
reconfiguration. -/
inductive SchedEvent where
  | submit (p : Nat) (sid : Nat)
  | start (sid : Nat)
  | complete (sid : Nat)
  | fail (sid : Nat)
  | cancel (sid : Nat)
  | setMax (p : Nat) (n : Nat)

/-- Admit the first `Queued` session of project `p` (FIFO head), moving it to
`Spawning`; leaves the list unchanged when no session of `p` is queued. -/
def admitFirst (p : Nat) : List Sess → List Sess
  | [] => []
  | x :: xs =>
      if queuedFor p x then { x with st := .Spawning } :: xs
      else x :: admitFirst p xs

/-- Modelled from the spec: on a terminal transition the Scheduler dequeues
the next `Queued` session of the project and admits it, provided a slot is
free (spec §4.4). -/
def admitNext (p : Nat) (s : SchedulerState) : SchedulerState :=
  if activeCount p s.sessions < s.capacity p then
    { s with sessions := admitFirst p s.sessions }
  else s

/-- Pointwise update used on a terminal transition: set session `sid` to
state `toSt`, leave every other session unchanged. -/
def terminate (sid : Nat) (toSt : SessionState) (y : Sess) : Sess :=
  if y.sid == sid then { y with st := toSt } else y

/-- Pointwise update for the `Spawning → Running` transition of session
`sid`. -/
def startSess (sid : Nat) (x : Sess) : Sess :=
  if x.sid == sid && x.st == SessionState.Spawning then { x with st := .Running } else x

/-- Move the session `sid` to terminal state `toSt` when its current state
satisfies `fromOk`, then admit the next queued session of its project. -/
def finishWith (sid : Nat) (fromOk : SessionState → Bool)
    (toSt : SessionState) (s : SchedulerState) : SchedulerState :=
  match s.sessions.find? (fun x => x.sid == sid) with
  | some x =>
      if fromOk x.st then
        admitNext x.project { s with sessions := s.sessions.map (terminate sid toSt) }
      else s
  | none => s

/-- Modelled from the spec: one Scheduler transition (spec §4.4).
Admission on `submit` counts slot-holding sessions (Spawning or Running),
since an admitted Session occupies its concurrency slot from admission until
the Scheduler releases it on terminal state (spec §2); `setMax` updates the
capacity read at admission time and touches no session (spec §9). -/
def schedStep (s : SchedulerState) : SchedEvent → SchedulerState
  | .submit p sid =>
      if s.sessions.any (fun x => x.sid == sid) then s
      else if activeCount p s.sessions < s.capacity p then
        { s with sessions := s.sessions ++ [⟨sid, p, .Spawning⟩] }
      else
        { s with sessions := s.sessions ++ [⟨sid, p, .Queued⟩] }
  | .start sid =>
      { s with sessions := s.sessions.map (startSess sid) }
  | .complete sid => finishWith sid (· == .Running) .Completed s
  | .fail sid => finishWith sid (fun st => st == .Spawning || st == .Running) .Failed s
  | .cancel sid => finishWith sid (fun st => !st.isTerminal) .Cancelled s
  | .setMax p n =>
      if 1 ≤ n then { s with capacity := fun q => if q = p then n else s.capacity q }
      else s

/-- Run the Scheduler over a trace of events. -/
def schedRun (s : SchedulerState) : List SchedEvent → SchedulerState
  | [] => s
  | e :: es => schedRun (schedStep s e) es

/-- A trace is capacity-respecting when no `setMax` event lowers a project's
capacity below its number of slot-holding sessions at that moment. -/
def goodEvent (s : SchedulerState) : SchedEvent → Bool
  | .setMax p n => decide (activeCount p s.sessions ≤ n)
  | _ => true

/-- Checks `goodEvent` at every step of a trace. -/
def goodTrace (s : SchedulerState) : List SchedEvent → Bool
  | [] => true
  | e :: es => goodEvent s e && goodTrace (schedStep s e) es

/-- The concurrency invariant: every project's slot-holding session count is
within its capacity. -/
def SchedInv (s : SchedulerState) : Prop :=
  ∀ p, activeCount p s.sessions ≤ s.capacity p

theorem countP_map_eq (q : Sess → Bool) (f : Sess → Sess) (l : List Sess)
    (h : ∀ x, q (f x) = q x) : (l.map f).countP q = l.countP q := by
  rw [List.countP_map]
  exact List.countP_congr (fun x _ => by simp [Function.comp, h x])

theorem countP_map_le (q : Sess → Bool) (f : Sess → Sess) (l : List Sess)
    (h : ∀ x, q (f x) = true → q x = true) : (l.map f).countP q ≤ l.countP q := by
  rw [List.countP_map]
  exact List.countP_mono_left (fun x _ hx => h x (by simpa [Function.comp] using hx))

theorem countP_admitFirst_le (p : Nat) (q : Sess → Bool) (l : List Sess) :
    (admitFirst p l).countP q ≤ l.countP q + 1 := by
  induction l with
  | nil => simp [admitFirst]
  | cons a l ih =>
      by_cases hq : queuedFor p a = true
      · simp only [admitFirst, hq, if_true, List.countP_cons]
        have h1 : (if q { a with st := .Spawning } = true then 1 else 0) ≤ 1 := by
          split <;> omega
        omega
      · simp only [Bool.not_eq_true] at hq
        simp only [admitFirst, hq, Bool.false_eq_true, if_false, List.countP_cons]
        omega

theorem countP_admitFirst_eq (p : Nat) (q : Sess → Bool) (l : List Sess)
    (h : ∀ x, queuedFor p x = true → q { x with st := .Spawning } = q x) :
    (admitFirst p l).countP q = l.countP q := by
  induction l with
  | nil => rfl
  | cons a l ih =>
      by_cases hq : queuedFor p a = true
      · simp only [admitFirst, hq, if_true, List.countP_cons, h a hq]
      · simp only [Bool.not_eq_true] at hq
        simp only [admitFirst, hq, Bool.false_eq_true, if_false, List.countP_cons, ih]

theorem isActiveFor_startSess (p sid : Nat) (x : Sess) :
    isActiveFor p (startSess sid x) = isActiveFor p x := by
  unfold startSess
  by_cases hc : (x.sid == sid && x.st == SessionState.Spawning) = true
  · have h12 : x.sid = sid ∧ x.st = SessionState.Spawning := by
      simpa [Bool.and_eq_true, beq_iff_eq] using hc
    simp [hc, h12.1, h12.2, isActiveFor, SessionState.isActive]
  · simp only [Bool.not_eq_true] at hc
    simp [hc]

theorem isActiveFor_terminate (p sid : Nat) (toSt : SessionState)
    (hT : toSt.isActive = false) (y : Sess) :
    isActiveFor p (terminate sid toSt y) = true → isActiveFor p y = true := by
  unfold terminate
  by_cases hc : (y.sid == sid) = true
  · simp [hc, isActiveFor, hT]
  · simp only [Bool.not_eq_true] at hc
    simp [hc]

theorem schedInv_admitNext (p : Nat) (s : SchedulerState) (hI : SchedInv s) :
    SchedInv (admitNext p s) := by
  unfold admitNext
  by_cases hg : activeCount p s.sessions < s.capacity p
  · simp only [hg, if_true]
    intro p'
    by_cases hp : p' = p
    · subst hp
      have hle := countP_admitFirst_le p' (isActiveFor p') s.sessions
      simp only [activeCount] at hg ⊢
      omega
    · have he : (admitFirst p s.sessions).countP (isActiveFor p') =
          s.sessions.countP (isActiveFor p') := by
        apply countP_admitFirst_eq
        intro x hx
        simp only [queuedFor, Bool.and_eq_true, beq_iff_eq] at hx
        simp [isActiveFor, SessionState.isActive, hx.1, hx.2, hp, Ne.symm hp]
      simp only [activeCount] at hI ⊢
      rw [he]
      exact hI p'
  · simp only [hg, if_false]
    exact hI

theorem schedInv_finishWith (sid : Nat) (fromOk : SessionState → Bool)
    (toSt : SessionState) (hT : toSt.isActive = false) (s : SchedulerState)
    (hI : SchedInv s) : SchedInv (finishWith sid fromOk toSt s) := by
  unfold finishWith
  cases hf : s.sessions.find? (fun x => x.sid == sid) with
  | none => exact hI
  | some x =>
      by_cases hok : fromOk x.st = true
      · simp only [hok, if_true]
        apply schedInv_admitNext
        intro p'
        have hle := countP_map_le (isActiveFor p') (terminate sid toSt) s.sessions
          (isActiveFor_terminate p' sid toSt hT)
        simp only [activeCount] at hI ⊢
        exact Nat.le_trans hle (hI p')
      · simp only [Bool.not_eq_true] at hok
        simp only [hok, Bool.false_eq_true, if_false]
        exact hI

theorem schedInv_step (s : SchedulerState) (e : SchedEvent) (hI : SchedInv s)
    (hg : goodEvent s e = true) : SchedInv (schedStep s e) := by
  cases e with
  | submit p sid =>
      simp only [schedStep]
      by_cases hdup : s.sessions.any (fun x => x.sid == sid) = true
      · simpa [hdup] using hI
      · simp only [Bool.not_eq_true] at hdup
        by_cases hcap : activeCount p s.sessions < s.capacity p
        · simp only [hdup, Bool.false_eq_true, if_false, hcap, if_true]
          intro p'
          simp only [activeCount, List.countP_append, List.countP_cons,
            List.countP_nil]
          by_cases hp : p = p'
          · subst hp
            simp only [activeCount] at hcap
            simp only [isActiveFor, SessionState.isActive, beq_self_eq_true,
              Bool.and_true]
            simp
            omega
          · simp only [isActiveFor, SessionState.isActive]
            simp [hp]
            exact hI p'
        · simp only [hdup, Bool.false_eq_true, if_false, hcap, if_false]
          intro p'
          simp only [activeCount, List.countP_append, List.countP_cons,
            List.countP_nil]
          simp only [isActiveFor, SessionState.isActive]
          simp
          exact hI p'
  | start sid =>
      intro p'
      simp only [schedStep, activeCount]
      rw [countP_map_eq _ _ _ (isActiveFor_startSess p' sid)]
      exact hI p'
  | complete sid =>
      exact schedInv_finishWith sid _ .Completed rfl s hI
  | fail sid =>
      exact schedInv_finishWith sid _ .Failed rfl s hI
  | cancel sid =>
      exact schedInv_finishWith sid _ .Cancelled rfl s hI
  | setMax p n =>
      simp only [schedStep]
      by_cases hn : 1 ≤ n
      · simp only [hn, if_true]
        intro p'
        by_cases hp : p' = p
        · subst hp
          simp only [goodEvent, decide_eq_true_eq] at hg
          simpa [activeCount] using hg
        · simpa [activeCount, hp] using hI p'
      · simpa [hn] using hI

theorem schedInv_run (tr : List SchedEvent) (s : SchedulerState)
    (hI : SchedInv s) (hg : goodTrace s tr = true) : SchedInv (schedRun s tr) := by
  induction tr generalizing s with
  | nil => exact hI
  | cons e es ih =>
      simp only [goodTrace, Bool.and_eq_true] at hg
      exact ih (schedStep s e) (schedInv_step s e hI hg.1) hg.2

theorem schedInv_init : SchedInv schedInit := by
  intro p
  simp [schedInit, activeCount]

theorem runningCount_le_activeCount (p : Nat) (l : List Sess) :
    runningCount p l ≤ activeCount p l :=
  List.countP_mono_left (fun x _ hx => by
    simp only [isRunningFor, Bool.and_eq_true, beq_iff_eq] at hx
    simp [isActiveFor, hx.1, hx.2, SessionState.isActive])

theorem runningCount_eq_activeCount (p : Nat) (l : List Sess)
    (h : ∀ x ∈ l, x.project = p → x.st ≠ .Spawning) :
    runningCount p l = activeCount p l := by
  unfold runningCount activeCount
  apply List.countP_congr
  intro x hx
  by_cases hp : x.project = p
  · have hns := h x hx hp
    cases hst : x.st <;>
      simp [isRunningFor, isActiveFor, SessionState.isActive, hp, hst] <;>
      exact absurd hst hns
  · simp [isRunningFor, isActiveFor, hp]

theorem filterMap_congr_mem (f g : Sess → Option Nat) (l : List Sess)
    (h : ∀ x ∈ l, f x = g x) : l.filterMap f = l.filterMap g := by
  induction l with
  | nil => rfl
  | cons a tl ih =>
      have ha := h a (by simp)
      have ht := ih (fun x hx => h x (by simp [hx]))
      simp [List.filterMap_cons, ha, ht]

theorem countP_map_terminate (q : Sess → Bool) (sid : Nat) (toSt : SessionState)
    (l : List Sess) (x : Sess)
    (hnd : (l.map Sess.sid).Nodup) (hx : x ∈ l) (hsid : x.sid = sid)
    (hqx : q x = true) (hqx' : q { x with st := toSt } = false) :
    (l.map (terminate sid toSt)).countP q + 1 = l.countP q := by
  induction l with
  | nil => cases hx
  | cons a tl ih =>
      simp only [List.map_cons, List.nodup_cons] at hnd
      rcases List.mem_cons.mp hx with hax | hxtl
      · subst hax
        have hmap : tl.map (terminate sid toSt) = tl := by
          have hpt : ∀ y ∈ tl, terminate sid toSt y = y := by
            intro y hy
            have hne : y.sid ≠ sid := by
              intro he
              apply hnd.1
              have hmem : y.sid ∈ tl.map Sess.sid := List.mem_map_of_mem Sess.sid hy
              rw [he, ← hsid] at hmem
              exact hmem
            unfold terminate
            simp [hne]
          calc tl.map (terminate sid toSt) = tl.map id := List.map_congr_left hpt
            _ = tl := List.map_id tl
        have hterm : terminate sid toSt x = { x with st := toSt } := by
          unfold terminate
          simp [hsid]
        simp [List.countP_cons, hterm, hqx, hqx', hmap]
      · have hane : a.sid ≠ sid := by
          intro he
          apply hnd.1
          rw [he, ← hsid]
          exact List.mem_map_of_mem Sess.sid hxtl
        have hterm : terminate sid toSt a = a := by
          unfold terminate
          simp [hane]
        have hrec := ih hnd.2 hxtl
        simp only [List.map_cons, hterm, List.countP_cons]
        omega

theorem queuedSids_map_terminate (p sid : Nat) (toSt : SessionState)
    (l : List Sess) (x : Sess)
    (hu : ∀ y ∈ l, y.sid = sid → y = x) (hxq : queuedFor p x = false)
    (hxq' : queuedFor p { x with st := toSt } = false) :
    queuedSids p (l.map (terminate sid toSt)) = queuedSids p l := by
  unfold queuedSids
  rw [List.filterMap_map]
  apply filterMap_congr_mem
  intro y hy
  by_cases hc : y.sid = sid
  · have hyx := hu y hy hc
    subst hyx
    have hterm : terminate sid toSt y = { y with st := toSt } := by
      unfold terminate
      simp [hc]
    simp [Function.comp, hterm, hxq, hxq']
  · have hterm : terminate sid toSt y = y := by
      unfold terminate
      simp [hc]
    simp [Function.comp, hterm]

theorem queuedSids_admitFirst (p : Nat) (l : List Sess) :
    queuedSids p (admitFirst p l) = (queuedSids p l).tail := by
  induction l with
  | nil => rfl
  | cons a tl ih =>
      by_cases hq : queuedFor p a = true
      · have hqs : queuedFor p { a with st := .Spawning } = false := by
          simp [queuedFor]
        simp [admitFirst, hq, queuedSids, List.filterMap_cons, hqs]
      · simp only [Bool.not_eq_true] at hq
        have h1 : queuedSids p (a :: admitFirst p tl) = queuedSids p (admitFirst p tl) := by
          simp [queuedSids, List.filterMap_cons, hq]
        have h2 : queuedSids p (a :: tl) = queuedSids p tl := by
          simp [queuedSids, List.filterMap_cons, hq]
        simp only [admitFirst, hq, Bool.false_eq_true, if_false]
        rw [h1, h2, ih]

theorem admitFirst_head_spawning (p : Nat) (l : List Sess) (q : Nat)
    (rest : List Nat) (h : queuedSids p l = q :: rest) :
    ∃ y ∈ admitFirst p l, y.sid = q ∧ y.project = p ∧ y.st = .Spawning := by
  induction l with
  | nil => simp [queuedSids] at h
  | cons a tl ih =>
      by_cases hq : queuedFor p a = true
      · have hpa : a.project = p := by
          have := hq
          simp only [queuedFor, Bool.and_eq_true, beq_iff_eq] at this
          exact this.1
        have hsid : a.sid = q := by
          simp only [queuedSids, List.filterMap_cons, hq, if_true] at h
          exact (List.cons_eq_cons.mp h).1
        refine ⟨{ a with st := .Spawning }, ?_, hsid, hpa, rfl⟩
        simp [admitFirst, hq]
      · simp only [Bool.not_eq_true] at hq
        have h' : queuedSids p tl = q :: rest := by
          simpa [queuedSids, List.filterMap_cons, hq] using h
        obtain ⟨y, hy, hys⟩ := ih h'
        refine ⟨y, ?_, hys⟩
        simp [admitFirst, hq]
        exact Or.inr hy

theorem complete_dequeues (s : SchedulerState) (sid : Nat) (x : Sess)
    (hI : SchedInv s) (hnd : (s.sessions.map Sess.sid).Nodup)
    (hf : s.sessions.find? (fun y => y.sid == sid) = some x)
    (hR : x.st = .Running) :
    (schedStep s (.complete sid)).sessions
        = admitFirst x.project (s.sessions.map (terminate sid .Completed))
    ∧ queuedSids x.project (s.sessions.map (terminate sid .Completed))
        = queuedSids x.project s.sessions := by
  have hxl : x ∈ s.sessions := List.mem_of_find?_eq_some hf
  have hxsid : x.sid = sid := by
    have := List.find?_some hf
    simpa [beq_iff_eq] using this
  have hqx : isActiveFor x.project x = true := by
    simp [isActiveFor, hR, SessionState.isActive]
  have hqx' : isActiveFor x.project { x with st := SessionState.Completed } = false := by
    simp [isActiveFor, SessionState.isActive]
  have hdec := countP_map_terminate (isActiveFor x.project) sid .Completed
    s.sessions x hnd hxl hxsid hqx hqx'
  have hguard : activeCount x.project (s.sessions.map (terminate sid .Completed))
      < s.capacity x.project := by
    have hle := hI x.project
    simp only [activeCount] at hle ⊢
    omega
  have hu : ∀ y ∈ s.sessions, y.sid = sid → y = x := by
    intro y hy he
    exact List.inj_on_of_nodup_map hnd hy hxl (by rw [he, hxsid])
  constructor
  · simp only [schedStep, finishWith, hf, hR, beq_self_eq_true, if_true, admitNext]
    simp only [hguard, if_true]
  · apply queuedSids_map_terminate x.project sid .Completed s.sessions x hu
    · simp [queuedFor, hR]
    · simp [queuedFor]

/-- Claim C1, as stated, is false: lowering `maxConcurrency` below the number
of currently running Sessions does not preempt them (by design), so a state
is reachable in which the running-Session count strictly exceeds the
project's configured capacity.  Concretely: run two Sessions under capacity
2, then set `maxConcurrency` to 1. -/
theorem capacity_decrease_exceeds_bound :
    (schedRun schedInit
        [.setMax 0 2, .submit 0 1, .start 1, .submit 0 2, .start 2,
         .setMax 0 1]).capacity 0
      < runningCount 0 (schedRun schedInit
        [.setMax 0 2, .submit 0 1, .start 1, .submit 0 2, .start 2,
         .setMax 0 1]).sessions := by
  decide

/-- C1 (amended): at every state reachable by a trace in which
`setMaxConcurrency` is never set below the project's current number of
slot-holding Sessions, the number of `Running` Sessions of each project is at
most that project's configured `maxConcurrency` — bursts of submissions
included, since excess submissions are queued rather than admitted; and a
`setMaxConcurrency` event never changes any Session's state (no preemption of
already-running Sessions: the sessions list is untouched). -/
theorem runningCount_bounded_of_capacity_respected (tr : List SchedEvent)
    (hg : goodTrace schedInit tr = true) :
    (∀ p, runningCount p (schedRun schedInit tr).sessions
        ≤ (schedRun schedInit tr).capacity p)
    ∧ (∀ (s : SchedulerState) (p n : Nat),
        (schedStep s (.setMax p n)).sessions = s.sessions) := by
  constructor
  · intro p
    have hI := schedInv_run tr schedInit schedInv_init hg
    exact Nat.le_trans (runningCount_le_activeCount p _) (hI p)
  · intro s p n
    simp only [schedStep]
    by_cases hn : 1 ≤ n
    · simp [hn]
    · simp [hn]

/-- Witness for C1 at a concrete capacity-respecting trace: one session is
submitted, started, and the capacity is then raised to 5. -/
theorem runningCount_bounded_of_capacity_respected_witness :
    goodTrace schedInit [.submit 0 1, .start 1, .setMax 0 5] = true
    ∧ runningCount 0 (schedRun schedInit
        [.submit 0 1, .start 1, .setMax 0 5]).sessions
      ≤ (schedRun schedInit [.submit 0 1, .start 1, .setMax 0 5]).capacity 0 :=
  ⟨by decide,
   (runningCount_bounded_of_capacity_respected
      [.submit 0 1, .start 1, .setMax 0 5] (by decide)).1 0⟩

/-- Claim C2: a submitted Session is admitted to `Spawning` immediately when
the project's running-Session count is under `maxConcurrency` (stated here
for states with no concurrently `Spawning` session of the project, where the
running count coincides with the slot-holding count the Scheduler guards on)
and is otherwise appended FIFO in state `Queued`; when a `Running` Session
completes, exactly the oldest `Queued` Session of its project is admitted
next (the queue loses precisely its head, which moves to `Spawning`),
preserving FIFO order.  In particular, submitting 5 Sessions to a project
with `maxConcurrency = 2` yields exactly 2 `Running` and 3 `Queued`, and
completing one running Session admits exactly one queued Session. -/
theorem submit_admission_fifo :
    (∀ (s : SchedulerState) (p sid : Nat),
      (∀ x ∈ s.sessions, x.sid ≠ sid) →
      (∀ x ∈ s.sessions, x.project = p → x.st ≠ .Spawning) →
      (runningCount p s.sessions < s.capacity p →
        (schedStep s (.submit p sid)).sessions
          = s.sessions ++ [⟨sid, p, .Spawning⟩])
      ∧ (¬ runningCount p s.sessions < s.capacity p →
        (schedStep s (.submit p sid)).sessions
          = s.sessions ++ [⟨sid, p, .Queued⟩]))
    ∧ (∀ (s : SchedulerState) (sid : Nat) (x : Sess),
      SchedInv s → (s.sessions.map Sess.sid).Nodup →
      s.sessions.find? (fun y => y.sid == sid) = some x → x.st = .Running →
      queuedSids x.project (schedStep s (.complete sid)).sessions
          = (queuedSids x.project s.sessions).tail
      ∧ ∀ q rest, queuedSids x.project s.sessions = q :: rest →
          ∃ y ∈ (schedStep s (.complete sid)).sessions,
            y.sid = q ∧ y.project = x.project ∧ y.st = .Spawning)
    ∧ (runningCount 0 (schedRun schedInit
        [.setMax 0 2, .submit 0 1, .start 1, .submit 0 2, .start 2,
         .submit 0 3, .submit 0 4, .submit 0 5]).sessions = 2
      ∧ queuedSids 0 (schedRun schedInit
        [.setMax 0 2, .submit 0 1, .start 1, .submit 0 2, .start 2,
         .submit 0 3, .submit 0 4, .submit 0 5]).sessions = [3, 4, 5]
      ∧ queuedSids 0 (schedStep (schedRun schedInit
        [.setMax 0 2, .submit 0 1, .start 1, .submit 0 2, .start 2,
         .submit 0 3, .submit 0 4, .submit 0 5]) (.complete 1)).sessions = [4, 5]
      ∧ activeCount 0 (schedStep (schedRun schedInit
        [.setMax 0 2, .submit 0 1, .start 1, .submit 0 2, .start 2,
         .submit 0 3, .submit 0 4, .submit 0 5]) (.complete 1)).sessions = 2
      ∧ runningCount 0 (schedStep (schedRun schedInit
        [.setMax 0 2, .submit 0 1, .start 1, .submit 0 2, .start 2,
         .submit 0 3, .submit 0 4, .submit 0 5]) (.complete 1)).sessions = 1) := by
  refine ⟨?_, ?_, by decide⟩
  · intro s p sid hfr hns
    have hany : s.sessions.any (fun x => x.sid == sid) = false := by
      rw [Bool.eq_false_iff]
      intro hco
      obtain ⟨y, hy, hysid⟩ := List.any_eq_true.mp hco
      exact hfr y hy (by simpa [beq_iff_eq] using hysid)
    have heq := runningCount_eq_activeCount p s.sessions hns
    constructor
    · intro hlt
      rw [heq] at hlt
      simp [schedStep, hany, hlt]
    · intro hge
      rw [heq] at hge
      simp [schedStep, hany, hge]
  · intro s sid x hI hnd hf hR
    obtain ⟨hsess, hqeq⟩ := complete_dequeues s sid x hI hnd hf hR
    constructor
    · rw [hsess, queuedSids_admitFirst, hqeq]
    · intro q rest hqr
      have hqr' : queuedSids x.project
          (s.sessions.map (terminate sid .Completed)) = q :: rest := by
        rw [hqeq, hqr]
      obtain ⟨y, hy, hys⟩ := admitFirst_head_spawning x.project _ q rest hqr'
      exact ⟨y, by rw [hsess]; exact hy, hys⟩

/-- Witness for C2 at concrete inputs: the empty Scheduler admits session 7
of project 0 immediately, and completing a running Session in a one-running,
one-queued state admits the queued one. -/
theorem submit_admission_fifo_witness :
    (∀ x ∈ schedInit.sessions, x.sid ≠ 7)
    ∧ (schedStep schedInit (.submit 0 7)).sessions
        = schedInit.sessions ++ [⟨7, 0, .Spawning⟩] := by
  have h := submit_admission_fifo.1 schedInit 0 7
    (by intro x hx; cases hx) (by intro x hx; cases hx)
  exact ⟨(by intro x hx; cases hx), h.1 (by decide)⟩

/-- Message roles (spec §3). -/
inductive Role where
  | user
  | agent
  | tool
  | system
deriving DecidableEq

/-- Modelled from the spec: one transcript Message (spec §3): monotonically
increasing sequence number within the Session, role, and text content
(content blocks collapsed to their text). -/
structure Message where
  seq : Nat
  role : Role
  text : String
deriving DecidableEq

/-- Modelled from the spec: appending a Message to a Session transcript
assigns the next sequence number; the existing entries are untouched
(append-only contract, spec §3). -/
def appendMessage (t : List Message) (r : Role) (txt : String) : List Message :=
  t ++ [⟨t.length, r, txt⟩]

/-- Extend a transcript with incoming (role, text) events in arrival order,
one `appendMessage` per event. -/
def extendTranscript (t : List Message) : List (Role × String) → List Message
  | [] => t
  | e :: es => extendTranscript (appendMessage t e.1 e.2) es

theorem extendTranscript_map_seq (es : List (Role × String)) (t : List Message) :
    (extendTranscript t es).map Message.seq
      = t.map Message.seq ++ List.range' t.length es.length := by
  induction es generalizing t with
  | nil => simp [extendTranscript]
  | cons e es ih =>
      rw [extendTranscript, ih]
      simp [appendMessage, List.range'_succ]

theorem extendTranscript_append_only (es : List (Role × String)) (t : List Message) :
    ∃ suffix, extendTranscript t es = t ++ suffix := by
  induction es generalizing t with
  | nil => exact ⟨[], by simp [extendTranscript]⟩
  | cons e es ih =>
      obtain ⟨s2, hs2⟩ := ih (appendMessage t e.1 e.2)
      exact ⟨⟨t.length, e.1, e.2⟩ :: s2, by
        rw [extendTranscript, hs2]
        simp [appendMessage]⟩

/-- Claim C3: within a Session the transcript's sequence numbers are exactly
`0, 1, 2, …` — strictly increasing with no gaps — for any arrival order and
any provider (the model is provider-independent: every adapter feeds the
same `appendMessage`); and the transcript is append-only: extending it with
further Messages leaves every already-written Message in place, so a written
Message is never mutated or removed. -/
theorem transcript_gapless_append_only :
    (∀ events : List (Role × String),
      (extendTranscript [] events).map Message.seq = List.range events.length
      ∧ ((extendTranscript [] events).map Message.seq).Pairwise (· < ·))
    ∧ (∀ (t : List Message) (events : List (Role × String)),
      ∃ suffix, extendTranscript t events = t ++ suffix) := by
  constructor
  · intro events
    have h := extendTranscript_map_seq events []
    simp only [List.map_nil, List.length_nil, List.nil_append] at h
    have hr : List.range' 0 events.length = List.range events.length :=
      (List.range_eq_range' events.length).symm
    rw [h, hr]
    exact ⟨rfl, List.pairwise_lt_range events.length⟩
  · exact fun t events => extendTranscript_append_only events t

/-- The worktree panel's polling period in milliseconds: the UI re-fetches
the worktree list (including each worktree's changed-file count) every 5000
ms (worktree-panel.tsx, setInterval in the interval effect). -/
def pollPeriodMs : Nat := 5000

/-- Time of the most recent poll at or before millisecond `t` (time 0 is the
initial fetch on mount). -/
def lastPollTime (t : Nat) : Nat := pollPeriodMs * (t / pollPeriodMs)

/-- The changed-file count the panel displays at time `t`, given the oracle
`disk` for the count the server re-derives from the repository on each
fetch: the panel shows the value fetched at the most recent poll. -/
def displayedDirtyCount (disk : Nat → Nat) (t : Nat) : Nat :=
  disk (lastPollTime t)

/-- Claim C7: the dirty-state summary is pull-based: at every instant the
displayed changed-file count is the value re-derived from disk at the most
recent poll, which is at most one 5-second polling period old (so a cached
value is always re-validated within 5000 ms); at each poll instant the
display equals the current on-disk state; and the display depends only on
the disk state at poll instants — a filesystem change between polls (a
would-be push notification) cannot alter what is displayed until the next
poll. -/
theorem dirty_state_pull_based :
    (∀ (disk : Nat → Nat) (t : Nat),
      displayedDirtyCount disk t = disk (lastPollTime t)
      ∧ lastPollTime t ≤ t ∧ t - lastPollTime t < pollPeriodMs)
    ∧ (∀ (disk : Nat → Nat) (k : Nat),
      displayedDirtyCount disk (pollPeriodMs * k) = disk (pollPeriodMs * k))
    ∧ (∀ disk1 disk2 : Nat → Nat,
      (∀ k, disk1 (pollPeriodMs * k) = disk2 (pollPeriodMs * k)) →
      ∀ t, displayedDirtyCount disk1 t = displayedDirtyCount disk2 t) := by
  refine ⟨?_, ?_, ?_⟩
  · intro disk t
    refine ⟨rfl, ?_, ?_⟩
    · calc lastPollTime t = t / pollPeriodMs * pollPeriodMs := Nat.mul_comm _ _
        _ ≤ t := Nat.div_mul_le_self t pollPeriodMs
    · have hmod := Nat.div_add_mod t pollPeriodMs
      have hlt : t % pollPeriodMs < pollPeriodMs :=
        Nat.mod_lt t (by simp [pollPeriodMs])
      unfold lastPollTime
      omega
  · intro disk k
    unfold displayedDirtyCount lastPollTime
    rw [Nat.mul_div_cancel_left k (by simp [pollPeriodMs] : 0 < pollPeriodMs)]
  · intro disk1 disk2 h t
    unfold displayedDirtyCount lastPollTime
    exact h (t / pollPeriodMs)

/-- Witness for C7 at concrete inputs: two disk oracles that agree at every
poll instant but differ at millisecond 7000 (between polls) produce the same
display at time 7000. -/
theorem dirty_state_pull_based_witness :
    displayedDirtyCount (fun t => if t == 7000 then 9 else 1) 7000
      = displayedDirtyCount (fun _ => 1) 7000 :=
  dirty_state_pull_based.2.2 (fun t => if t == 7000 then 9 else 1) (fun _ => 1)
    (fun k => by
      have h5 : pollPeriodMs = 5000 := rfl
      rw [h5]
      have : 5000 * k ≠ 7000 := by omega
      simp [this])
    7000

theorem append_ne_empty_right (r s : String) (hs : s ≠ "") : r ++ s ≠ "" := by
  intro h
  apply hs
  apply String.ext
  have hlen : (r ++ s).length = 0 := by rw [h]; rfl
  rw [String.length_append] at hlen
  have hsl : s.length = 0 := by omega
  have hdata : s.data.length = 0 := hsl
  exact List.length_eq_zero.mp hdata

/-- One step of Node `path.join`: joins two segments with a single "/",
treating an empty left operand as absent.  The handler's inputs are a
normalized project path and separator-free constant segments, for which
Node's join is exactly this. -/
def join2 (a b : String) : String :=
  if a = "" then b else a ++ "/" ++ b

/-- The worktree path computed by the diffs handler (diffs.ts):
`path.join(projectPath, ".automaker", "worktrees", featureId)`. -/
def worktreePathOf (projectPath featureId : String) : String :=
  join2 (join2 (join2 projectPath ".automaker") "worktrees") featureId

/-- The main worktree's path: the project root itself (spec §6; the diffs
handler's fallback computes diffs directly at `projectPath`). -/
def mainWorktreePath (projectPath : String) : String := projectPath

/-- Claim C4: for every non-empty project root `r` and feature id `f`, the
feature's worktree lives at the single deterministic path
`r ++ "/.automaker/worktrees/" ++ f` — a pure function of the project root
and the feature id exactly as the handler computes it — and the main
worktree's path is the project root itself. -/
theorem worktree_path_deterministic (r f : String) (h : r ≠ "") :
    worktreePathOf r f = r ++ "/.automaker/worktrees/" ++ f
    ∧ mainWorktreePath r = r := by
  refine ⟨?_, rfl⟩
  have h1 : r ++ "/" ++ ".automaker" ≠ "" := by
    rw [String.append_assoc]
    exact append_ne_empty_right r ("/" ++ ".automaker") (by decide)
  have h2 : r ++ "/" ++ ".automaker" ++ "/" ++ "worktrees" ≠ "" := by
    rw [String.append_assoc]
    exact append_ne_empty_right (r ++ "/" ++ ".automaker") ("/" ++ "worktrees")
      (by decide)
  unfold worktreePathOf join2
  rw [if_neg h, if_neg h1, if_neg h2]
  apply String.ext
  simp only [String.data_append, List.append_assoc]
  congr 1

/-- Witness for C4 at a concrete project root and feature id. -/
theorem worktree_path_deterministic_witness :
    worktreePathOf "/home/user/project" "feat-42"
        = "/home/user/project" ++ "/.automaker/worktrees/" ++ "feat-42"
    ∧ mainWorktreePath "/home/user/project" = "/home/user/project" :=
  worktree_path_deterministic "/home/user/project" "feat-42" (by decide)

/-- JavaScript truthiness of an optional string request field: false for a
missing (or non-string) field and for the empty string. -/
def truthy : Option String → Bool
  | none => false
  | some s => !(s == "")

/-- Result of one `getGitRepositoryDiffs` call: a diff payload, or a thrown
error. -/
inductive DiffOutcome where
  | ok (diff : String) (files : List String) (hasChanges : Bool)
  | err
deriving DecidableEq

/-- Filesystem and git oracles for the diffs handler: whether `fs.access`
succeeds at a path and what `getGitRepositoryDiffs` returns at a path. -/
structure FsEnv where
  access : String → Bool
  gitDiffs : String → DiffOutcome

/-- HTTP response of the diffs route: status plus its payload fields. -/
structure DiffsResponse where
  status : Nat
  success : Bool
  diff : String
  files : List String
  hasChanges : Bool
  error : Option String
deriving DecidableEq

/-- Request body of POST /diffs. -/
structure DiffsBody where
  projectPath : Option String
  featureId : Option String

/-- The diffs handler's fallback (diffs.ts): compute diffs at the main
project path; if that also throws, respond 200 with an empty diff, empty
file list and `hasChanges: false`. -/
def diffsFallback (env : FsEnv) (projectPath : String) : DiffsResponse :=
  match env.gitDiffs projectPath with
  | .ok d f hc => ⟨200, true, d, f, hc, none⟩
  | .err => ⟨200, true, "", [], false, none⟩

/-- Embedding of createDiffsHandler (diffs.ts): missing or empty body fields
give 400; otherwise try the worktree path, fall back to the project path on
any inner failure, and swallow a fallback failure into an empty-diff 200. -/
def createDiffsHandler (env : FsEnv) (body : DiffsBody) : DiffsResponse :=
  if !truthy body.projectPath || !truthy body.featureId then
    ⟨400, false, "", [], false, some "projectPath and featureId required"⟩
  else
    let pp := body.projectPath.getD ""
    let fid := body.featureId.getD ""
    let wt := worktreePathOf pp fid
    if env.access wt then
      match env.gitDiffs wt with
      | .ok d f hc => ⟨200, true, d, f, hc, none⟩
      | .err => diffsFallback env pp
    else diffsFallback env pp

/-- Claim C8: for every POST /diffs request carrying truthy `projectPath`
and `featureId`, the handler answers HTTP 200 with `success: true` whatever
the filesystem and git oracles do; when the worktree directory is
inaccessible it serves the fallback computed from the main project path;
when that fallback also throws it still answers 200 with an empty diff,
empty file list and `hasChanges: false`; and no input at all produces a 500
(a 500 could only arise outside both diff attempts). -/
theorem diffs_handler_never_500 :
    (∀ (env : FsEnv) (body : DiffsBody),
      truthy body.projectPath = true → truthy body.featureId = true →
      (createDiffsHandler env body).status = 200
      ∧ (createDiffsHandler env body).success = true)
    ∧ (∀ (env : FsEnv) (pp fid : String),
      truthy (some pp) = true → truthy (some fid) = true →
      env.access (worktreePathOf pp fid) = false →
      createDiffsHandler env ⟨some pp, some fid⟩ = diffsFallback env pp)
    ∧ (∀ (env : FsEnv) (pp : String), env.gitDiffs pp = .err →
      diffsFallback env pp = ⟨200, true, "", [], false, none⟩)
    ∧ (∀ (env : FsEnv) (body : DiffsBody),
      (createDiffsHandler env body).status ≠ 500) := by
  have hstat : ∀ (env : FsEnv) (body : DiffsBody),
      (createDiffsHandler env body).status = 400
      ∨ ((createDiffsHandler env body).status = 200
         ∧ (createDiffsHandler env body).success = true) := by
    intro env body
    unfold createDiffsHandler
    by_cases hb : (!truthy body.projectPath || !truthy body.featureId) = true
    · rw [if_pos hb]
      exact Or.inl rfl
    · rw [if_neg hb]
      simp only
      by_cases ha : env.access (worktreePathOf (body.projectPath.getD "")
          (body.featureId.getD "")) = true
      · rw [if_pos ha]
        cases env.gitDiffs (worktreePathOf (body.projectPath.getD "")
            (body.featureId.getD "")) with
        | ok d f hc => exact Or.inr ⟨rfl, rfl⟩
        | err =>
            unfold diffsFallback
            cases env.gitDiffs (body.projectPath.getD "") with
            | ok d f hc => exact Or.inr ⟨rfl, rfl⟩
            | err => exact Or.inr ⟨rfl, rfl⟩
      · rw [if_neg ha]
        unfold diffsFallback
        cases env.gitDiffs (body.projectPath.getD "") with
        | ok d f hc => exact Or.inr ⟨rfl, rfl⟩
        | err => exact Or.inr ⟨rfl, rfl⟩
  refine ⟨?_, ?_, ?_, ?_⟩
  · intro env body hp hf
    have hb : (!truthy body.projectPath || !truthy body.featureId) = false := by
      rw [hp, hf]
      rfl
    rcases hstat env body with h4 | h2
    · exfalso
      unfold createDiffsHandler at h4
      rw [hb] at h4
      simp only [Bool.false_eq_true, if_false] at h4
      by_cases ha : env.access (worktreePathOf (body.projectPath.getD "")
          (body.featureId.getD "")) = true
      · rw [if_pos ha] at h4
        revert h4
        cases env.gitDiffs (worktreePathOf (body.projectPath.getD "")
            (body.featureId.getD "")) with
        | ok d f hc => simp
        | err =>
            unfold diffsFallback
            cases env.gitDiffs (body.projectPath.getD "") with
            | ok d f hc => simp
            | err => simp
      · rw [if_neg ha] at h4
        revert h4
        unfold diffsFallback
        cases env.gitDiffs (body.projectPath.getD "") with
        | ok d f hc => simp
        | err => simp
    · exact h2
  · intro env pp fid hp hf ha
    unfold createDiffsHandler
    have hb : (!truthy (some pp) || !truthy (some fid)) = false := by
      rw [hp, hf]
      rfl
    simp only [hb, Bool.false_eq_true, if_false, Option.getD_some, ha,
      Bool.false_eq_true, if_false]
  · intro env pp he
    unfold diffsFallback
    rw [he]
  · intro env body
    rcases hstat env body with h4 | h2
    · omega
    · omega

/-- Result of a coordinator acquire: the worktree's path, or a `WorktreeBusy`
failure (the blocking alternative of spec §4.5 is modelled as this failure
surfacing after the timeout). -/
inductive WtResult where
  | ok (path : String)
  | busy
deriving DecidableEq

/-- Result of a coordinator remove. -/
inductive WtRemoveResult where
  | removed
  | busy
deriving DecidableEq

/-- Modelled from the spec: Worktree Coordinator state (spec §4.5): the
created worktrees (feature id, path) and the current acquisitions
(feature id, holding session id). -/
structure WtState where
  worktrees : List (String × String)
  holds : List (String × Nat)
deriving DecidableEq

/-- The coordinator's initial state: no worktrees, no acquisitions. -/
def wtInit : WtState := ⟨[], []⟩

/-- Whether some session currently holds the worktree of feature `fid`. -/
def heldBy (st : WtState) (fid : String) : Bool :=
  st.holds.any (fun h => h.1 == fid)

/-- Modelled from the spec: `acquire(projectId, featureId)` (spec §4.5):
fails with `WorktreeBusy` while another acquisition for the feature id is
outstanding; returns the existing worktree's path when one exists; otherwise
creates the worktree at the deterministic path and returns it. -/
def wtAcquire (root : String) (st : WtState) (fid : String) (sid : Nat) :
    WtResult × WtState :=
  if heldBy st fid then (.busy, st)
  else
    match st.worktrees.lookup fid with
    | some path => (.ok path, { st with holds := (fid, sid) :: st.holds })
    | none =>
        (.ok (worktreePathOf root fid),
         { worktrees := (fid, worktreePathOf root fid) :: st.worktrees,
           holds := (fid, sid) :: st.holds })

/-- Modelled from the spec: `release(worktree)` (spec §4.5): idempotent;
clears the in-process reservation only, never deletes the worktree. -/
def wtRelease (st : WtState) (fid : String) : WtState :=
  { st with holds := st.holds.filter (fun h => !(h.1 == fid)) }

/-- Modelled from the spec: `remove(worktree)` (spec §4.5): deletes the
worktree, failing with `WorktreeBusy` if a Session currently holds it. -/
def wtRemove (st : WtState) (fid : String) : WtRemoveResult × WtState :=
  if heldBy st fid then (.busy, st)
  else (.removed, { st with worktrees := st.worktrees.filter (fun w => !(w.1 == fid)) })

/-- Coordinator events: acquire, release, remove. -/
inductive WtEvent where
  | acq (fid : String) (sid : Nat)
  | rel (fid : String)
  | rem (fid : String)

/-- One coordinator transition. -/
def wtStep (root : String) (st : WtState) : WtEvent → WtState
  | .acq fid sid => (wtAcquire root st fid sid).2
  | .rel fid => wtRelease st fid
  | .rem fid => (wtRemove st fid).2

/-- Run the coordinator over a trace of events. -/
def wtRun (root : String) (st : WtState) : List WtEvent → WtState
  | [] => st
  | e :: es => wtRun root (wtStep root st e) es

/-- The exclusivity invariant: the outstanding acquisitions name pairwise
distinct feature ids. -/
def WtInv (st : WtState) : Prop :=
  (st.holds.map Prod.fst).Nodup

theorem wtInv_step (root : String) (st : WtState) (e : WtEvent)
    (hI : WtInv st) : WtInv (wtStep root st e) := by
  cases e with
  | acq fid sid =>
      simp only [wtStep, wtAcquire]
      by_cases hh : heldBy st fid = true
      · simpa [hh] using hI
      · have hno : fid ∉ st.holds.map Prod.fst := by
          intro hmem
          obtain ⟨h, hmem2, hfst⟩ := List.mem_map.mp hmem
          have : heldBy st fid = true :=
            List.any_eq_true.mpr ⟨h, hmem2, by simp [hfst]⟩
          exact hh this
        rw [if_neg hh]
        cases hl : st.worktrees.lookup fid with
        | some path =>
            simp only [WtInv, List.map_cons, List.nodup_cons]
            exact ⟨hno, hI⟩
        | none =>
            simp only [WtInv, List.map_cons, List.nodup_cons]
            exact ⟨hno, hI⟩
  | rel fid =>
      simp only [wtStep, wtRelease]
      exact List.Nodup.sublist
        (List.Sublist.map Prod.fst (List.filter_sublist st.holds)) hI
  | rem fid =>
      simp only [wtStep, wtRemove]
      by_cases hh : heldBy st fid = true
      · simpa [hh] using hI
      · simpa [hh] using hI

theorem wtInv_run (root : String) (tr : List WtEvent) (st : WtState)
    (hI : WtInv st) : WtInv (wtRun root st tr) := by
  induction tr generalizing st with
  | nil => exact hI
  | cons e es ih => exact ih (wtStep root st e) (wtInv_step root st e hI)

/-- Claim C6: at every state the coordinator reaches from its initial state,
no two Sessions simultaneously hold the worktree acquisition of one feature
id; an `acquire` while the worktree is in use fails with `WorktreeBusy` and
changes nothing; a successful `acquire` for an existing worktree returns
exactly the stored worktree's path (never a different one); and `remove`
fails with `WorktreeBusy` while a Session holds the worktree. -/
theorem worktree_acquisition_exclusive :
    (∀ (root : String) (tr : List WtEvent) (fid : String) (s1 s2 : Nat),
      (fid, s1) ∈ (wtRun root wtInit tr).holds →
      (fid, s2) ∈ (wtRun root wtInit tr).holds → s1 = s2)
    ∧ (∀ (root : String) (st : WtState) (fid : String) (sid : Nat),
      heldBy st fid = true → wtAcquire root st fid sid = (.busy, st))
    ∧ (∀ (root : String) (st : WtState) (fid : String) (sid : Nat) (path : String),
      heldBy st fid = false → st.worktrees.lookup fid = some path →
      (wtAcquire root st fid sid).1 = .ok path)
    ∧ (∀ (st : WtState) (fid : String),
      heldBy st fid = true → wtRemove st fid = (.busy, st)) := by
  refine ⟨?_, ?_, ?_, ?_⟩
  · intro root tr fid s1 s2 h1 h2
    have hI : WtInv (wtRun root wtInit tr) :=
      wtInv_run root tr wtInit (by simp [WtInv, wtInit])
    have := List.inj_on_of_nodup_map hI h1 h2 (by rfl)
    exact congrArg Prod.snd this
  · intro root st fid sid hh
    unfold wtAcquire
    rw [if_pos hh]
  · intro root st fid sid path hh hl
    unfold wtAcquire
    rw [if_neg (by simp [hh]), hl]
  · intro st fid hh
    unfold wtRemove
    rw [if_pos hh]

/-- Witness for C6 at concrete inputs: after one acquisition of feature
"f1" by session 1, a second acquire by session 2 fails with `WorktreeBusy`,
and a re-acquire after release returns the same path. -/
theorem worktree_acquisition_exclusive_witness :
    heldBy (wtRun "/r" wtInit [.acq "f1" 1]) "f1" = true
    ∧ wtAcquire "/r" (wtRun "/r" wtInit [.acq "f1" 1]) "f1" 2
        = (.busy, wtRun "/r" wtInit [.acq "f1" 1])
    ∧ (wtAcquire "/r" (wtRelease (wtRun "/r" wtInit [.acq "f1" 1]) "f1") "f1" 2).1
        = .ok (worktreePathOf "/r" "f1") := by
  refine ⟨by decide, ?_, ?_⟩
  · exact worktree_acquisition_exclusive.2.1 "/r" _ "f1" 2 (by decide)
  · exact worktree_acquisition_exclusive.2.2.1 "/r" _ "f1" 2
      (worktreePathOf "/r" "f1") (by decide) (by decide)


/-- JavaScript `String.prototype.trim()` modelled by structural recursion
over the character data (strip leading and trailing whitespace). -/
def trimStr (s : String) : String :=
  ⟨((s.data.dropWhile (fun c => c.isWhitespace)).reverse.dropWhile
      (fun c => c.isWhitespace)).reverse⟩

/-- JavaScript `String.prototype.toLowerCase()` modelled by structural
recursion over the character data. -/
def toLowerStr (s : String) : String :=
  ⟨s.data.map Char.toLower⟩

/-- The tool-permission-relevant arguments of one `simpleQuery` provider
call, as passed by the one-shot handlers; `readOnly = none` when the call
site omits the flag.  (Prompt and model text do not affect the safety
claims and are not carried.) -/
structure SimpleQueryArgs where
  maxTurns : Nat
  allowedTools : List String
  readOnly : Option Bool
deriving DecidableEq

/-- Outcome of the generate-title handler: a rejection before any provider
call, or the provider call it issues. -/
inductive TitleOutcome where
  | badRequest (status : Nat)
  | providerCall (args : SimpleQueryArgs)
deriving DecidableEq

/-- Embedding of createGenerateTitleHandler (part_006): a missing,
non-string or empty `description` and whitespace-only text are rejected
with 400; otherwise the handler calls `simpleQuery` with `maxTurns: 1` and
`allowedTools: []`, without setting `readOnly`. -/
def createGenerateTitleHandler : Option String → TitleOutcome
  | none => .badRequest 400
  | some d =>
      if d == "" then .badRequest 400
      else if trimStr d == "" then .badRequest 400
      else .providerCall { maxTurns := 1, allowedTools := [], readOnly := none }

/-- The five supported enhancement modes (the `EnhancementMode` keys of the
handler's system-prompt record in part_009). -/
def VALID_ENHANCEMENT_MODES : List String :=
  ["improve", "technical", "simplify", "acceptance", "ux-reviewer"]

/-- Modelled from the spec: `isValidEnhancementMode` lives in
enhancement-prompts.js, which is not in the source tree; per the handler's
doc comment and its `Record<EnhancementMode, string>` it is membership in
the five supported modes. -/
def isValidEnhancementMode (m : String) : Bool :=
  VALID_ENHANCEMENT_MODES.contains m

/-- Request body of POST /enhance-prompt (fields the mode logic reads);
`none` models a missing or non-string field. -/
structure EnhanceBody where
  originalText : Option String
  enhancementMode : Option String

/-- Outcome of the enhance handler: a rejection before any provider call, or
the provider call it issues together with the enhancement mode it used. -/
inductive EnhanceOutcome where
  | badRequest (status : Nat)
  | providerCall (args : SimpleQueryArgs) (mode : String)
deriving DecidableEq

/-- Embedding of createEnhanceHandler (part_009): missing/non-string/empty
`originalText` or `enhancementMode` and whitespace-only text are rejected
with 400; otherwise the mode is lowercased, silently replaced by "improve"
when not one of the five supported modes, and the handler calls
`simpleQuery` with `maxTurns: 1`, `allowedTools: []` and `readOnly: true`. -/
def createEnhanceHandler (body : EnhanceBody) : EnhanceOutcome :=
  match body.originalText with
  | none => .badRequest 400
  | some t =>
      if t == "" then .badRequest 400
      else
        match body.enhancementMode with
        | none => .badRequest 400
        | some m =>
            if m == "" then .badRequest 400
            else if trimStr t == "" then .badRequest 400
            else
              .providerCall { maxTurns := 1, allowedTools := [], readOnly := some true }
                (if isValidEnhancementMode (toLowerStr m) then toLowerStr m
                 else "improve")

/-- Claim C5, as stated, is false: the title-generation call site passes an
empty `allowedTools` list but does not mark the query read-only — it omits
the `readOnly` flag that the enhance call site sets. -/
theorem one_shot_read_only_counterexample :
    ¬ (∀ (d : Option String) (args : SimpleQueryArgs),
        createGenerateTitleHandler d = .providerCall args →
        args.allowedTools = [] ∧ args.readOnly = some true) := by
  intro h
  have := (h (some "add dark mode")
      { maxTurns := 1, allowedTools := [], readOnly := none } (by decide)).2
  simp at this

/-- C5 (amended): every one-shot query reaching a provider call passes an
empty `allowedTools` list and `maxTurns = 1` to `simpleQuery`; the enhance
query is additionally marked `readOnly: true`, while the title-generation
query omits the `readOnly` flag (it is not marked read-only at the call
site, relying on the empty tool list alone). -/
theorem one_shot_tool_permissions :
    (∀ (d : Option String) (args : SimpleQueryArgs),
      createGenerateTitleHandler d = .providerCall args →
      args.allowedTools = [] ∧ args.maxTurns = 1 ∧ args.readOnly = none)
    ∧ (∀ (body : EnhanceBody) (args : SimpleQueryArgs) (mode : String),
      createEnhanceHandler body = .providerCall args mode →
      args.allowedTools = [] ∧ args.maxTurns = 1 ∧ args.readOnly = some true) := by
  constructor
  · intro d args h
    cases d with
    | none => simp [createGenerateTitleHandler] at h
    | some t =>
        simp only [createGenerateTitleHandler] at h
        by_cases h1 : (t == "") = true
        · rw [if_pos h1] at h
          cases h
        · rw [if_neg h1] at h
          by_cases h2 : (trimStr t == "") = true
          · rw [if_pos h2] at h
            cases h
          · rw [if_neg h2] at h
            cases h
            exact ⟨rfl, rfl, rfl⟩
  · intro body args mode h
    cases hot : body.originalText with
    | none =>
        unfold createEnhanceHandler at h
        rw [hot] at h
        cases h
    | some t =>
        unfold createEnhanceHandler at h
        rw [hot] at h
        simp only at h
        by_cases h1 : (t == "") = true
        · rw [if_pos h1] at h
          cases h
        · rw [if_neg h1] at h
          cases hem : body.enhancementMode with
          | none =>
              rw [hem] at h
              cases h
          | some m =>
              rw [hem] at h
              simp only at h
              by_cases h2 : (m == "") = true
              · rw [if_pos h2] at h
                cases h
              · rw [if_neg h2] at h
                by_cases h3 : (trimStr t == "") = true
                · rw [if_pos h3] at h
                  cases h
                · rw [if_neg h3] at h
                  cases h
                  exact ⟨rfl, rfl, rfl⟩

/-- Witness for C5 (amended) at concrete requests. -/
theorem one_shot_tool_permissions_witness :
    (createGenerateTitleHandler (some "add dark mode")
        = .providerCall { maxTurns := 1, allowedTools := [], readOnly := none }
      ∧ ({ maxTurns := 1, allowedTools := [], readOnly := none : SimpleQueryArgs }).allowedTools = [])
    ∧ (createEnhanceHandler ⟨some "hello world", some "Technical"⟩
        = .providerCall { maxTurns := 1, allowedTools := [], readOnly := some true }
            "technical"
      ∧ ({ maxTurns := 1, allowedTools := [], readOnly := some true : SimpleQueryArgs }).readOnly
          = some true) := by
  refine ⟨⟨by decide, ?_⟩, by decide, ?_⟩
  · exact (one_shot_tool_permissions.1 (some "add dark mode") _ (by decide)).1
  · exact (one_shot_tool_permissions.2 ⟨some "hello world", some "Technical"⟩ _
      "technical" (by decide)).2.2

/-- Claim C10, as stated, is false on one edge: an enhance request whose
`enhancementMode` is the empty string — a string, with non-empty
`originalText` — is rejected with 400 by the falsy-field validation before
the mode is ever normalized. -/
theorem enhance_mode_counterexample :
    createEnhanceHandler ⟨some "hello", some ""⟩ = .badRequest 400 := by
  decide

/-- C10 (amended): for every enhance request with a non-whitespace
`originalText` and a non-empty string `enhancementMode`, the handler
lowercases the mode, silently substitutes "improve" when the lowercased mode
is not one of improve / technical / simplify / acceptance / ux-reviewer, and
proceeds to the provider call: an unknown non-empty enhancement mode never
causes the request to be rejected. -/
theorem enhance_mode_normalization (t m : String)
    (ht : (t == "") = false) (ht2 : (trimStr t == "") = false)
    (hm : (m == "") = false) :
    createEnhanceHandler ⟨some t, some m⟩
      = .providerCall { maxTurns := 1, allowedTools := [], readOnly := some true }
          (if isValidEnhancementMode (toLowerStr m) then toLowerStr m else "improve")
    ∧ (isValidEnhancementMode (toLowerStr m) = false →
      createEnhanceHandler ⟨some t, some m⟩
        = .providerCall { maxTurns := 1, allowedTools := [], readOnly := some true }
            "improve") := by
  have hmain : createEnhanceHandler ⟨some t, some m⟩
      = .providerCall { maxTurns := 1, allowedTools := [], readOnly := some true }
          (if isValidEnhancementMode (toLowerStr m) then toLowerStr m
           else "improve") := by
    unfold createEnhanceHandler
    simp only
    rw [if_neg (by simp [ht]), if_neg (by simp [hm]), if_neg (by simp [ht2])]
  refine ⟨hmain, fun hinv => ?_⟩
  rw [hmain, if_neg (by simp [hinv])]

/-- Witness for C10: the unknown mode "Ux-Magician" on a concrete request is
normalized to "improve" and the request proceeds. -/
theorem enhance_mode_normalization_witness :
    createEnhanceHandler ⟨some "hello", some "Ux-Magician"⟩
      = .providerCall { maxTurns := 1, allowedTools := [], readOnly := some true }
          "improve" :=
  (enhance_mode_normalization "hello" "Ux-Magician" (by decide) (by decide)
    (by decide)).2 (by decide)


/-- The `String.endsWith` test used by the middleware, modelled over the
character data. -/
def endsWithStr (s suf : String) : Bool :=
  suf.data.isSuffixOf s.data

/-- The `String.dropRight` used by the middleware, modelled over the
character data. -/
def dropRightStr (s : String) (n : Nat) : String :=
  ⟨s.data.take (s.data.length - n)⟩

/-- A request parameter value as the middleware sees it: a string, an array
(string elements kept, non-string elements collapsed to `none`, which the
middleware skips uniformly), or any other value. -/
inductive JVal where
  | str (s : String)
  | arr (elems : List (Option String))
  | other
deriving DecidableEq

/-- An Express request: body and query parameter maps. -/
structure MReq where
  body : List (String × JVal)
  query : List (String × JVal)

/-- Embedding of getParamValue (part_005): the body is consulted first, then
the query. -/
def getParamValue (req : MReq) (paramName : String) : Option JVal :=
  match req.body.lookup paramName with
  | some v => some v
  | none => req.query.lookup paramName

/-- One iteration of the validatePathParams loop (part_005), against the
validity oracle `allowed` (`allowed s = false` models `validatePath s`
throwing `PathNotAllowedError`): false iff some validatePath call for this
name throws.  Names ending in "?" and plain names validate a present truthy
(non-empty) string value and skip everything else; names ending in "[]"
validate every string element of a present array. -/
def checkParamName (allowed : String → Bool) (req : MReq) (paramName : String) : Bool :=
  if endsWithStr paramName "?" then
    match getParamValue req (dropRightStr paramName 1) with
    | some (.str s) => if s == "" then true else allowed s
    | _ => true
  else if endsWithStr paramName "[]" then
    match getParamValue req (dropRightStr paramName 2) with
    | some (.arr vs) =>
        vs.all (fun v => match v with | some s => allowed s | none => true)
    | _ => true
  else
    match getParamValue req paramName with
    | some (.str s) => if s == "" then true else allowed s
    | _ => true

/-- Outcome of the middleware: next() or an error response. -/
inductive MwOutcome where
  | next
  | forbidden (status : Nat) (success : Bool)
deriving DecidableEq

/-- Embedding of validatePathParams (part_005): next() when no checked value
makes validatePath throw; 403 with success:false on PathNotAllowedError. -/
def validatePathParamsMw (paramNames : List String) (allowed : String → Bool)
    (req : MReq) : MwOutcome :=
  if paramNames.all (checkParamName allowed req) then .next
  else .forbidden 403 false

/-- The values the middleware validates for one name. -/
def checkedValuesForName (req : MReq) (paramName : String) : List String :=
  if endsWithStr paramName "?" then
    match getParamValue req (dropRightStr paramName 1) with
    | some (.str s) => if s == "" then [] else [s]
    | _ => []
  else if endsWithStr paramName "[]" then
    match getParamValue req (dropRightStr paramName 2) with
    | some (.arr vs) => vs.filterMap id
    | _ => []
  else
    match getParamValue req paramName with
    | some (.str s) => if s == "" then [] else [s]
    | _ => []

/-- All values the middleware validates across the parameter list. -/
def checkedValues (req : MReq) (paramNames : List String) : List String :=
  paramNames.flatMap (checkedValuesForName req)

theorem checkParamName_iff (allowed : String → Bool) (req : MReq) (name : String) :
    checkParamName allowed req name = true ↔
      ∀ v ∈ checkedValuesForName req name, allowed v = true := by
  unfold checkParamName checkedValuesForName
  by_cases h1 : endsWithStr name "?" = true
  · rw [if_pos h1, if_pos h1]
    cases getParamValue req (dropRightStr name 1) with
    | none => simp
    | some v =>
        cases v with
        | str s =>
            by_cases hs : (s == "") = true
            · simp [hs]
            · simp [hs]
        | arr es => simp
        | other => simp
  · rw [if_neg h1, if_neg h1]
    by_cases h2 : endsWithStr name "[]" = true
    · rw [if_pos h2, if_pos h2]
      cases getParamValue req (dropRightStr name 2) with
      | none => simp
      | some v =>
          cases v with
          | str s => simp
          | arr es =>
              simp only [List.all_eq_true]
              constructor
              · intro h v hv
                obtain ⟨ov, hov, hid⟩ := List.mem_filterMap.mp hv
                have hd := h ov hov
                cases ov with
                | none => cases hid
                | some s =>
                    cases hid
                    exact hd
              · intro h ov hov
                cases ov with
                | none => rfl
                | some s2 => exact h s2 (List.mem_filterMap.mpr ⟨some s2, hov, rfl⟩)
          | other => simp
    · rw [if_neg h2, if_neg h2]
      cases getParamValue req name with
      | none => simp
      | some v =>
          cases v with
          | str s =>
              by_cases hs : (s == "") = true
              · simp [hs]
              · simp [hs]
          | arr es => simp
          | other => simp

/-- Claim C9: the middleware built by validatePathParams calls next()
exactly when every value it checks passes validatePath, and otherwise
answers 403 with success:false without calling next(); a plain parameter
whose value is absent or not a string contributes no checked value — it
passes through unvalidated — a name suffixed "?" is checked only when the
parameter is present, and a name suffixed "[]" has exactly its array's
string elements checked. -/
theorem validate_path_params_behavior :
    (∀ (names : List String) (allowed : String → Bool) (req : MReq),
      (validatePathParamsMw names allowed req = .next ↔
        ∀ v ∈ checkedValues req names, allowed v = true)
      ∧ (validatePathParamsMw names allowed req ≠ .next →
        validatePathParamsMw names allowed req = .forbidden 403 false))
    ∧ (∀ (name : String) (allowed : String → Bool) (req : MReq),
      endsWithStr name "?" = false → endsWithStr name "[]" = false →
      (∀ s : String, getParamValue req name ≠ some (.str s)) →
      checkParamName allowed req name = true ∧ checkedValuesForName req name = [])
    ∧ (∀ (name : String) (allowed : String → Bool) (req : MReq),
      endsWithStr name "?" = true →
      getParamValue req (dropRightStr name 1) = none →
      checkParamName allowed req name = true ∧ checkedValuesForName req name = [])
    ∧ (∀ (name : String) (req : MReq) (vs : List (Option String)),
      endsWithStr name "?" = false → endsWithStr name "[]" = true →
      getParamValue req (dropRightStr name 2) = some (.arr vs) →
      checkedValuesForName req name = vs.filterMap id) := by
  refine ⟨?_, ?_, ?_, ?_⟩
  · intro names allowed req
    have hiff : names.all (checkParamName allowed req) = true ↔
        ∀ v ∈ checkedValues req names, allowed v = true := by
      rw [List.all_eq_true]
      constructor
      · intro h v hv
        obtain ⟨name, hname, hvn⟩ := List.mem_flatMap.mp hv
        exact (checkParamName_iff allowed req name).mp (h name hname) v hvn
      · intro h name hname
        exact (checkParamName_iff allowed req name).mpr
          (fun v hv => h v (List.mem_flatMap.mpr ⟨name, hname, hv⟩))
    unfold validatePathParamsMw
    by_cases hall : names.all (checkParamName allowed req) = true
    · rw [if_pos hall]
      exact ⟨⟨fun _ => hiff.mp hall, fun _ => rfl⟩, fun hne => absurd rfl hne⟩
    · rw [if_neg hall]
      refine ⟨⟨fun h => absurd h (by simp), fun hv => absurd (hiff.mpr hv) hall⟩,
        fun _ => rfl⟩
  · intro name allowed req h1 h2 hns
    constructor
    · unfold checkParamName
      rw [if_neg (by simp [h1]), if_neg (by simp [h2])]
      cases hg : getParamValue req name with
      | none => rfl
      | some v =>
          cases v with
          | str s => exact absurd hg (hns s)
          | arr es => rfl
          | other => rfl
    · unfold checkedValuesForName
      rw [if_neg (by simp [h1]), if_neg (by simp [h2])]
      cases hg : getParamValue req name with
      | none => rfl
      | some v =>
          cases v with
          | str s => exact absurd hg (hns s)
          | arr es => rfl
          | other => rfl
  · intro name allowed req h1 hg
    constructor
    · unfold checkParamName
      rw [if_pos h1, hg]
    · unfold checkedValuesForName
      rw [if_pos h1, hg]
  · intro name req vs h1 h2 hg
    unfold checkedValuesForName
    rw [if_neg (by simp [h1]), if_pos h2, hg]

/-- Witness for C9 at a concrete request: a request carrying a non-string
`projectPath` passes a middleware that checks only `projectPath` (the
non-string passes through unvalidated) even under an all-rejecting oracle,
while a middleware checking a disallowed string value answers 403. -/
theorem validate_path_params_behavior_witness :
    validatePathParamsMw ["projectPath"] (fun _ => false)
        ⟨[("projectPath", .other)], []⟩ = .next
    ∧ validatePathParamsMw ["worktreePath"] (fun _ => false)
        ⟨[("worktreePath", .str "/etc")], []⟩ = .forbidden 403 false := by
  constructor
  · exact (validate_path_params_behavior.1 ["projectPath"] (fun _ => false)
      ⟨[("projectPath", .other)], []⟩).1.mpr (by decide)
  · have h := (validate_path_params_behavior.1 ["worktreePath"] (fun _ => false)
      ⟨[("worktreePath", .str "/etc")], []⟩)
    apply h.2
    intro hn
    have hall := h.1.mp hn
    have h2 := hall "/etc" (by decide)
    simp at h2


/-- Witness for C8 at a concrete request against oracles in which the
worktree is inaccessible and both diff attempts throw: the response is
still a 200 success. -/
theorem diffs_handler_never_500_witness :
    (createDiffsHandler ⟨fun _ => false, fun _ => .err⟩
        ⟨some "/proj", some "feat"⟩).status = 200
    ∧ (createDiffsHandler ⟨fun _ => false, fun _ => .err⟩
        ⟨some "/proj", some "feat"⟩).success = true :=
  diffs_handler_never_500.1 ⟨fun _ => false, fun _ => .err⟩
    ⟨some "/proj", some "feat"⟩ (by decide) (by decide)

end Automaker
